import Mathlib

/-!
# Verification of the KZG commitment core (`src/kzg_proofs.c`)

A shallow embedding of the KZG polynomial-commitment core: committing to a
polynomial, producing single-point and batch (coset) opening proofs, and
verifying them via a pairing check.

The scalar field is a generic `Field F`.  The two pairing groups G1 and G2 are
modelled by the discrete logarithms of their elements with respect to the
fixed generators: a group point `a·G` is represented by the scalar `a`.  This
is faithful for the algebraic content of the scheme because both source groups
and the target group have the same prime order `r` and the pairing is the
non-degenerate bilinear map `e(a·G1, b·G2) = e(G1,G2)^(a·b)`; the pairing
equality `e(A1,B2) == e(C1,D2)` holds exactly when `a·b = c·d` in the scalar
field.  C functions that write through an out-pointer and return a status code
are modelled as functions into `Except KzgError α`.
-/

set_option linter.unusedSectionVars false

namespace CKzg

/-- Return statuses of the C core (`C_KZG_BADARGS`, `C_KZG_ERROR`,
`C_KZG_MALLOC`); `C_KZG_OK` together with the out-parameter is modelled by
`Except.ok`. -/
inductive KzgError where
  | BADARGS
  | ERROR
  | MALLOC
deriving DecidableEq

/-- A polynomial: an ordered sequence of field-element coefficients, lowest
degree first; length 0 represents the zero polynomial. -/
structure poly (F : Type) where
  coeffs : List F
deriving DecidableEq

/-- The coefficient count of a polynomial (the C `p->length`). -/
def poly.length {F : Type} (p : poly F) : ℕ := p.coeffs.length

/-- Modelled from the spec: the FFT domain — a precomputed table of roots of
unity up to a maximum power-of-two width.  `root` is the root of unity of
order `max_width`; the table entry of index `i` is `root ^ i`, and the width-`n`
transform uses the stride-`max_width / n` entry. -/
structure FFTSettings (F : Type) where
  max_width : ℕ
  root : F
deriving DecidableEq

/-- The `n`-th root of unity drawn from the domain: the table entry at stride
`max_width / n`, i.e. `root ^ (max_width / n)`. -/
def FFTSettings.rootForWidth {F : Type} [Field F] (fs : FFTSettings F) (n : ℕ) : F :=
  fs.root ^ (fs.max_width / n)

/-- The commitment key (`KZGSettings`): the two SRS arrays of G1 / G2 points
(in the discrete-log model, scalars), their common length, and the borrowed
FFT domain. -/
structure KZGSettings (F : Type) where
  secret_g1 : List F
  secret_g2 : List F
  length : ℕ
  fs : FFTSettings F
deriving DecidableEq

section Primitives

variable {F : Type} [Field F] [DecidableEq F]

/-- Modelled from the spec: the G1 generator, in the discrete-log model the
scalar 1. -/
def g1_generator : F := 1

/-- Modelled from the spec: the G2 generator, in the discrete-log model the
scalar 1. -/
def g2_generator : F := 1

/-- Modelled from the spec: the G1 identity, in the discrete-log model the
scalar 0. -/
def g1_identity : F := 0

/-- Modelled from the spec: G1 scalar multiplication `k · a`. -/
def g1_mul (a k : F) : F := k * a

/-- Modelled from the spec: G2 scalar multiplication `k · a`. -/
def g2_mul (a k : F) : F := k * a

/-- Modelled from the spec: G1 subtraction. -/
def g1_sub (a b : F) : F := a - b

/-- Modelled from the spec: G2 subtraction. -/
def g2_sub (a b : F) : F := a - b

/-- Modelled from the spec: the pairing check `e(A1,B2) == e(C1,D2)`.  In the
discrete-log model this holds exactly when `a1·b2 = c1·d2` in the scalar
field. -/
def pairings_verify (a1 b2 c1 d2 : F) : Bool := decide (a1 * b2 = c1 * d2)

/-- Modelled from the spec: field exponentiation `fr_pow`. -/
def fr_pow (x : F) (n : ℕ) : F := x ^ n

/-- Modelled from the spec: field inversion `fr_inv`.  The collaborator
contract says inversion fails only on the zero element; the C core calls it
without checking for failure, and in the field model `0⁻¹ = 0`. -/
def fr_inv (x : F) : F := x⁻¹

/-- Modelled from the spec: the multi-scalar multiplication
`g1_linear_combination(out, p, coeffs, len)`, accumulating
`Σ coeffs[i] * p[i]` over `i < len`. -/
def g1_linear_combination (p : List F) (coeffs : List F) (len : ℕ) : F :=
  (List.range len).foldl (fun acc i => acc + coeffs.getD i 0 * p.getD i 0) 0

/-- Modelled from the spec: polynomial point evaluation `eval_poly`
(Horner's rule, coefficients lowest degree first). -/
def eval_poly (p : poly F) (x : F) : F :=
  p.coeffs.foldr (fun c acc => c + x * acc) 0

/-- Modelled from the spec: the power-of-two test used by the `CHECK`
preconditions ("`n` is a power of two"). -/
def is_power_of_two (n : ℕ) : Bool := decide (∃ k, k ≤ n ∧ n = 2 ^ k)

/-- One cancellation round of polynomial long division, coefficients highest
degree first.  `d0` is the divisor's leading coefficient and `dT` the rest of
the divisor; the fuel argument bounds the recursion by the dividend length. -/
def divModAux (d0 : F) (dT : List F) : ℕ → List F → List F × List F
  | 0, a => ([], a)
  | fuel + 1, a =>
    if a.length ≤ dT.length then ([], a)
    else
      match a with
      | [] => ([], [])
      | c :: rest =>
        let q0 := c / d0
        let rest2 := (List.zipWith (fun u v => u - v) (rest.take dT.length)
            (dT.map (fun v => q0 * v))) ++ rest.drop dT.length
        let p := divModAux d0 dT fuel rest2
        (q0 :: p.1, p.2)

/-- Long division of `a` (highest degree first) by the divisor `d0 :: dT`
(highest degree first, leading coefficient `d0`), returning the quotient and
remainder, both highest degree first. -/
def divModH (d0 : F) (dT : List F) (a : List F) : List F × List F :=
  divModAux d0 dT a.length a

/-- Modelled from the spec: the polynomial utility
`divide(numerator, denominator) -> quotient` — exact polynomial long division
retaining only the quotient, the remainder discarded by contract.  Fails with
`BADARGS` when the divisor is empty or has a zero leading coefficient. -/
def new_poly_div (p divisor : poly F) : Except KzgError (poly F) :=
  match divisor.coeffs.reverse with
  | [] => .error .BADARGS
  | d0 :: dT =>
    if d0 = 0 then .error .BADARGS
    else .ok ⟨(divModH d0 dT p.coeffs.reverse).1.reverse⟩

/-- Modelled from the spec: the inverse discrete Fourier transform over the
size-`n` root-of-unity domain generated by `w`:
`out[i] = n⁻¹ · Σ_{j<n} vals[j] · w^(-i·j)`. -/
def inverseDFT (w : F) (n : ℕ) (vals : List F) : List F :=
  (List.range n).map (fun i =>
    ((List.range n).map (fun j => vals.getD j 0 * w⁻¹ ^ (i * j))).sum * (n : F)⁻¹)

/-- Modelled from the spec: the forward discrete Fourier transform over the
size-`n` root-of-unity domain generated by `w`. -/
def forwardDFT (w : F) (n : ℕ) (vals : List F) : List F :=
  (List.range n).map (fun i =>
    ((List.range n).map (fun j => vals.getD j 0 * w ^ (i * j))).sum)

/-- Modelled from the spec: the FFT module entry point
`fft_fr(out, input, inverse, n, fs)`; fails if the width `n` exceeds the
domain's precomputed maximum. -/
def fft_fr (input : List F) (inverse : Bool) (n : ℕ) (fs : FFTSettings F) :
    Except KzgError (List F) :=
  if n ≤ fs.max_width then
    .ok (if inverse then inverseDFT (fs.rootForWidth n) n input
         else forwardDFT (fs.rootForWidth n) n input)
  else .error .BADARGS

end Primitives

section Core

variable {F : Type} [Field F] [DecidableEq F]

/-- `commit_to_poly` (src/kzg_proofs.c:40-44): `CHECK(p->length <= ks->length)`
then the multi-scalar multiplication of the coefficients with the G1 SRS. -/
def commit_to_poly (p : poly F) (ks : KZGSettings F) : Except KzgError F :=
  if p.length ≤ ks.length then
    .ok (g1_linear_combination ks.secret_g1 p.coeffs p.length)
  else .error .BADARGS

/-- The divisor polynomial built inside `compute_proof_multi`
(src/kzg_proofs.c:110-123): allocate `n + 1` coefficients, write
`-(x0^n)` at index 0, zeros at indices `1 .. n-1`, and one at index `n`. -/
def divisorOf (x0 : F) (n : ℕ) : poly F :=
  let base := List.replicate (n + 1) (0 : F)
  let base := base.set 0 (-(fr_pow x0 n))
  let base := (List.range' 1 (n - 1)).foldl (fun l i => l.set i 0) base
  ⟨base.set n 1⟩

/-- `compute_proof_multi` (src/kzg_proofs.c:104-134): check `n` is a power of
two, build the divisor `x^n - x0^n`, divide, and commit to the quotient. -/
def compute_proof_multi (p : poly F) (x0 : F) (n : ℕ) (ks : KZGSettings F) :
    Except KzgError F :=
  if is_power_of_two n then do
    let divisor := divisorOf x0 n
    let q ← new_poly_div p divisor
    commit_to_poly q ks
  else .error .BADARGS

/-- `compute_proof_single` (src/kzg_proofs.c:57-59): the batch proof with
coset size 1. -/
def compute_proof_single (p : poly F) (x0 : F) (ks : KZGSettings F) :
    Except KzgError F :=
  compute_proof_multi p x0 1 ks

/-- `check_proof_single` (src/kzg_proofs.c:74-86): the pairing check
`e(commitment - [y]_1, G2) == e(proof, [s - x]_2)`. -/
def check_proof_single (commitment proof x y : F) (ks : KZGSettings F) :
    Except KzgError Bool :=
  let x_g2 := g2_mul g2_generator x
  let s_minus_x := g2_sub (ks.secret_g2.getD 1 0) x_g2
  let y_g1 := g1_mul g1_generator y
  let commitment_minus_y := g1_sub commitment y_g1
  .ok (pairings_verify commitment_minus_y g2_generator proof s_minus_x)

/-- The coset-correction loop of `check_proof_multi`
(src/kzg_proofs.c:169-173): starting at index `i` with accumulator `acc`, for
`steps` iterations multiply `coeffs[i]` by the accumulated power of `x⁻¹` and
then multiply the accumulator by `invx`.  Returns the updated coefficients and
the final accumulator. -/
def cosetLoop (invx : F) : List F → F → ℕ → ℕ → List F × F
  | coeffs, acc, _, 0 => (coeffs, acc)
  | coeffs, acc, i, steps + 1 =>
    cosetLoop invx (coeffs.set i (coeffs.getD i 0 * acc)) (acc * invx) (i + 1) steps

/-- `check_proof_multi` (src/kzg_proofs.c:154-192): inverse-FFT the claimed
values, coset-correct by powers of `x⁻¹`, recover `x^n` by inverting the
accumulated `x^(-n)`, and run the pairing check
`e(commitment - [I(s)]_1, G2) == e(proof, [s^n - x^n]_2)`. -/
def check_proof_multi (commitment proof x : F) (ys : List F) (n : ℕ)
    (ks : KZGSettings F) : Except KzgError Bool :=
  if is_power_of_two n then do
    let interp0 ← fft_fr ys true n ks.fs
    let inv_x := fr_inv x
    let lp := cosetLoop inv_x interp0 inv_x 1 (n - 1)
    let interp := lp.1
    let inv_x_pow := lp.2
    let x_pow := fr_inv inv_x_pow
    let xn2 := g2_mul g2_generator x_pow
    let xn_minus_yn := g2_sub (ks.secret_g2.getD n 0) xn2
    let is1 ← commit_to_poly ⟨interp⟩ ks
    let commit_minus_interp := g1_sub commitment is1
    .ok (pairings_verify commit_minus_interp g2_generator proof xn_minus_yn)
  else .error .BADARGS

/-- `compute_proof_multi` instrumented with allocation accounting: the second
component counts the transient polynomials still allocated (leaked) when the
function returns.  `new_poly(&divisor, n+1)` allocates one, `new_poly_div`
allocates the quotient on success; each `TRY` failure returns without freeing
what is already live, and the success path frees both. -/
def compute_proof_multi_alloc (p : poly F) (x0 : F) (n : ℕ) (ks : KZGSettings F) :
    Except KzgError F × ℕ :=
  if is_power_of_two n then
    let divisor := divisorOf x0 n
    match new_poly_div p divisor with
    | .error e => (.error e, 1)
    | .ok q =>
      match commit_to_poly q ks with
      | .error e => (.error e, 2)
      | .ok c => (.ok c, 0)
  else (.error .BADARGS, 0)

/-- `check_proof_multi` instrumented with allocation accounting: the second
component counts the transient polynomials still allocated (leaked) when the
function returns.  `new_poly(&interp, n)` allocates the interpolation
polynomial before the `TRY(fft_fr ...)` and `TRY(commit_to_poly ...)` calls;
each `TRY` failure returns without freeing it, and the success path frees it. -/
def check_proof_multi_alloc (commitment proof x : F) (ys : List F) (n : ℕ)
    (ks : KZGSettings F) : Except KzgError Bool × ℕ :=
  if is_power_of_two n then
    match fft_fr ys true n ks.fs with
    | .error e => (.error e, 1)
    | .ok interp0 =>
      let inv_x := fr_inv x
      let lp := cosetLoop inv_x interp0 inv_x 1 (n - 1)
      let x_pow := fr_inv lp.2
      let xn_minus_yn := g2_sub (ks.secret_g2.getD n 0) (g2_mul g2_generator x_pow)
      match commit_to_poly ⟨lp.1⟩ ks with
      | .error e => (.error e, 1)
      | .ok is1 =>
        (.ok (pairings_verify (g1_sub commitment is1) g2_generator proof xn_minus_yn), 0)
  else (.error .BADARGS, 0)

/-- An honestly generated commitment key with secret scalar `s`: both SRS
arrays have exactly `length` entries and entry `i` is the group embedding of
`s ^ i` (in the discrete-log model, the scalar `s ^ i` itself). -/
def honestKey (ks : KZGSettings F) (s : F) : Prop :=
  ks.secret_g1.length = ks.length ∧ ks.secret_g2.length = ks.length ∧
  (∀ i, i < ks.length → ks.secret_g1.getD i 0 = s ^ i) ∧
  (∀ i, i < ks.length → ks.secret_g2.getD i 0 = s ^ i)

instance honestKey.decidable (ks : KZGSettings F) (s : F) :
    Decidable (honestKey ks s) := by
  unfold honestKey
  infer_instance

/-- `w` is a primitive `n`-th root of unity: `w ^ n = 1` and no smaller
positive power of `w` is 1. -/
def isPrimRoot (w : F) (n : ℕ) : Prop :=
  w ^ n = 1 ∧ ∀ m, m < n → 0 < m → w ^ m ≠ 1

instance isPrimRoot.decidable (w : F) (n : ℕ) : Decidable (isPrimRoot w n) := by
  unfold isPrimRoot
  infer_instance

/-- Evaluation of a coefficient list with the highest-degree coefficient
first, by Horner's rule (used to reason about the long division, which the C
code performs highest degree first). -/
def evalH (l : List F) (z : F) : F := l.foldl (fun acc c => acc * z + c) 0

/-- The divisor polynomial as the spec words it: the degree-`n` vanishing
polynomial `D(x) = x^n - x0^n`, with coefficient 0 equal to `-(x0^n)`,
coefficients `1 .. n-1` equal to zero, and coefficient `n` equal to one. -/
def specDivisor (x0 : F) (n : ℕ) : poly F :=
  ⟨(-(x0 ^ n)) :: (List.replicate (n - 1) 0 ++ [1])⟩

/-- The quotient of the exact long division, as a low-degree-first
polynomial. -/
def poly_quotient (p d : poly F) : poly F :=
  match d.coeffs.reverse with
  | [] => ⟨[]⟩
  | d0 :: dT => ⟨(divModH d0 dT p.coeffs.reverse).1.reverse⟩

/-- The remainder of the exact long division, as a low-degree-first
polynomial (discarded by the C code, used here only for reasoning). -/
def poly_remainder (p d : poly F) : poly F :=
  match d.coeffs.reverse with
  | [] => ⟨[]⟩
  | d0 :: dT => ⟨(divModH d0 dT p.coeffs.reverse).2.reverse⟩

/-- Batch verification written exactly as the spec's step list in §4.5:
inverse-FFT the claimed values, multiply coefficient `i` by `x^(-i)`,
form `[s^n - x^n]_2` from `x^n`, commit to the corrected interpolation
polynomial, and return the pairing check.  Used to state that the code
refines the spec. -/
def verify_multi_spec (commitment proof x : F) (ys : List F) (n : ℕ)
    (ks : KZGSettings F) : Except KzgError Bool :=
  if is_power_of_two n then do
    let coeffs ← fft_fr ys true n ks.fs
    let corrected := (List.range n).map (fun i => coeffs.getD i 0 * x⁻¹ ^ i)
    let xn2 := g2_mul g2_generator (x ^ n)
    let sn_minus_xn := g2_sub (ks.secret_g2.getD n 0) xn2
    let is1 ← commit_to_poly ⟨corrected⟩ ks
    .ok (pairings_verify (g1_sub commitment is1) g2_generator proof sn_minus_xn)
  else .error .BADARGS

/-- The concrete five-element field used to exercise the definitions on
closed inputs. -/
instance fact_prime_5 : Fact (Nat.Prime 5) := ⟨by norm_num⟩

end Core

section ListLemmas

variable {F : Type} [Field F] [DecidableEq F]

theorem sum_map_range (f : ℕ → F) (n : ℕ) :
    ((List.range n).map f).sum = ∑ i in Finset.range n, f i := by
  induction n with
  | zero => simp
  | succ n ih =>
    rw [List.range_succ, List.map_append, List.sum_append, Finset.sum_range_succ, ih]
    simp

theorem foldl_add_eq (g : ℕ → F) (l : List ℕ) (acc : F) :
    l.foldl (fun a i => a + g i) acc = acc + (l.map g).sum := by
  induction l generalizing acc with
  | nil => simp
  | cons hd tl ih => simp [List.foldl_cons, ih, add_assoc]

theorem g1_linear_combination_eq (p coeffs : List F) (len : ℕ) :
    g1_linear_combination p coeffs len =
      ∑ i in Finset.range len, coeffs.getD i 0 * p.getD i 0 := by
  rw [g1_linear_combination, foldl_add_eq, sum_map_range, zero_add]

theorem getD_map_range (f : ℕ → F) {j n : ℕ} (h : j < n) :
    ((List.range n).map f).getD j 0 = f j := by
  rw [List.getD_eq_getElem?_getD, List.getElem?_map, List.getElem?_range h]
  rfl

theorem evalH_foldl_acc (z : F) (l : List F) (acc : F) :
    l.foldl (fun acc c => acc * z + c) acc = acc * z ^ l.length + evalH l z := by
  induction l generalizing acc with
  | nil => simp [evalH]
  | cons hd tl ih =>
    rw [List.foldl_cons, ih (acc * z + hd)]
    have h2 : evalH (hd :: tl) z = hd * z ^ tl.length + evalH tl z := by
      rw [evalH, List.foldl_cons, zero_mul, zero_add, ih hd]
    rw [h2, List.length_cons, pow_succ]
    ring

theorem evalH_cons (z : F) (c : F) (l : List F) :
    evalH (c :: l) z = c * z ^ l.length + evalH l z := by
  rw [evalH, List.foldl_cons, zero_mul, zero_add, evalH_foldl_acc]

theorem evalH_append (z : F) (u v : List F) :
    evalH (u ++ v) z = evalH u z * z ^ v.length + evalH v z := by
  rw [evalH, List.foldl_append, evalH_foldl_acc]
  rfl

theorem evalH_zip_sub (z : F) (u v : List F) (h : u.length = v.length) :
    evalH (List.zipWith (fun a b => a - b) u v) z = evalH u z - evalH v z := by
  induction u generalizing v with
  | nil =>
    cases v with
    | nil => simp [evalH]
    | cons b t => simp at h
  | cons a ta ih =>
    cases v with
    | nil => simp at h
    | cons b tb =>
      simp only [List.length_cons, Nat.succ.injEq] at h
      rw [List.zipWith_cons_cons, evalH_cons, evalH_cons, evalH_cons, ih tb h]
      rw [List.length_zipWith, h, min_self]
      ring

theorem evalH_map_mul (z k : F) (l : List F) :
    evalH (l.map (fun v => k * v)) z = k * evalH l z := by
  induction l with
  | nil => simp [evalH]
  | cons hd tl ih =>
    rw [List.map_cons, evalH_cons, evalH_cons, ih, List.length_map]
    ring

theorem evalH_replicate_zero (z : F) (n : ℕ) :
    evalH (List.replicate n (0 : F)) z = 0 := by
  induction n with
  | zero => simp [evalH]
  | succ n ih => rw [List.replicate_succ, evalH_cons, ih, zero_mul, zero_add]

theorem eval_poly_cons (z c : F) (l : List F) :
    eval_poly (⟨c :: l⟩ : poly F) z = c + z * eval_poly ⟨l⟩ z := by
  simp [eval_poly]

theorem eval_poly_eq_evalH (p : poly F) (z : F) :
    eval_poly p z = evalH p.coeffs.reverse z := by
  obtain ⟨l⟩ := p
  induction l with
  | nil => simp [eval_poly, evalH]
  | cons hd tl ih =>
    rw [eval_poly_cons, ih, List.reverse_cons, evalH_append]
    simp [evalH, List.foldl_cons]
    ring

theorem eval_poly_eq_sum (l : List F) (z : F) :
    eval_poly (⟨l⟩ : poly F) z = ∑ i in Finset.range l.length, l.getD i 0 * z ^ i := by
  induction l with
  | nil => simp [eval_poly]
  | cons hd tl ih =>
    rw [eval_poly_cons, ih, List.length_cons, Finset.sum_range_succ']
    rw [Finset.mul_sum]
    simp only [List.getD_cons_succ, List.getD_cons_zero, pow_zero, mul_one, pow_succ]
    rw [add_comm]
    congr 1
    apply Finset.sum_congr rfl
    intro i _
    ring

theorem eval_poly_eq_sum_pad (l : List F) (z : F) {N : ℕ} (h : l.length ≤ N) :
    eval_poly (⟨l⟩ : poly F) z = ∑ i in Finset.range N, l.getD i 0 * z ^ i := by
  rw [eval_poly_eq_sum]
  apply Finset.sum_subset
  · intro i hi
    simp only [Finset.mem_range] at hi ⊢
    omega
  · intro i _ hi
    simp only [Finset.mem_range, not_lt] at hi
    rw [List.getD_eq_default _ _ hi, zero_mul]

end ListLemmas

section DivisionLemmas

variable {F : Type} [Field F] [DecidableEq F]

theorem rest2_length (rest dT : List F) (f : F → F) (h : dT.length ≤ rest.length) :
    ((List.zipWith (fun u v => u - v) (rest.take dT.length) (dT.map f)) ++
      rest.drop dT.length).length = rest.length := by
  rw [List.length_append, List.length_zipWith, List.length_take, List.length_map,
    List.length_drop]
  omega

theorem divModAux_rem_length (d0 : F) (dT : List F) :
    ∀ (fuel : ℕ) (a : List F), a.length ≤ fuel + dT.length →
      (divModAux d0 dT fuel a).2.length ≤ dT.length := by
  intro fuel
  induction fuel with
  | zero =>
    intro a ha
    simpa [divModAux] using ha
  | succ fuel ih =>
    intro a ha
    simp only [divModAux]
    by_cases hle : a.length ≤ dT.length
    · simpa [hle]
    · simp only [hle, if_false]
      match a with
      | [] => simp at hle
      | c :: rest =>
        simp only []
        apply ih
        rw [rest2_length]
        · simp only [List.length_cons] at hle ha ⊢
          omega
        · simp only [List.length_cons] at hle
          omega

theorem divModAux_quot_length (d0 : F) (dT : List F) :
    ∀ (fuel : ℕ) (a : List F), a.length ≤ fuel + dT.length →
      (divModAux d0 dT fuel a).1.length = a.length - dT.length := by
  intro fuel
  induction fuel with
  | zero =>
    intro a ha
    simp only [Nat.zero_add] at ha
    simp [divModAux, Nat.sub_eq_zero_of_le ha]
  | succ fuel ih =>
    intro a ha
    simp only [divModAux]
    by_cases hle : a.length ≤ dT.length
    · simp [hle, Nat.sub_eq_zero_of_le hle]
    · simp only [hle, if_false]
      match a with
      | [] => simp at hle
      | c :: rest =>
        simp only [List.length_cons]
        have hlen2 : ((List.zipWith (fun u v => u - v) (rest.take dT.length)
            (dT.map (fun v => (c / d0) * v))) ++ rest.drop dT.length).length = rest.length := by
          apply rest2_length
          simp only [List.length_cons] at hle
          omega
        rw [ih _ (by rw [hlen2]; simp only [List.length_cons] at ha; omega), hlen2]
        simp only [List.length_cons] at hle
        omega

theorem divModAux_unfold_cons (d0 : F) (dT : List F) (fuel : ℕ) (c : F)
    (rest : List F) (hrle : dT.length ≤ rest.length) :
    divModAux d0 dT (fuel + 1) (c :: rest) =
      (c / d0 :: (divModAux d0 dT fuel ((List.zipWith (fun u v => u - v)
          (rest.take dT.length) (dT.map (fun v => c / d0 * v))) ++
            rest.drop dT.length)).1,
        (divModAux d0 dT fuel ((List.zipWith (fun u v => u - v)
          (rest.take dT.length) (dT.map (fun v => c / d0 * v))) ++
            rest.drop dT.length)).2) := by
  simp only [divModAux]
  rw [if_neg (by simp only [List.length_cons]; omega)]

theorem divModAux_eval_step (d0 : F) (hd0 : d0 ≠ 0) (dT : List F) (z : F) (fuel : ℕ)
    (ih : ∀ a : List F, a.length ≤ fuel + dT.length →
      evalH (divModAux d0 dT fuel a).1 z * evalH (d0 :: dT) z +
        evalH (divModAux d0 dT fuel a).2 z = evalH a z)
    (c : F) (rest : List F) (hrle : dT.length ≤ rest.length)
    (ha : rest.length ≤ fuel + dT.length) :
    evalH (divModAux d0 dT (fuel + 1) (c :: rest)).1 z * evalH (d0 :: dT) z +
      evalH (divModAux d0 dT (fuel + 1) (c :: rest)).2 z = evalH (c :: rest) z := by
  rw [divModAux_unfold_cons d0 dT fuel c rest hrle]
  set rest2 := (List.zipWith (fun u v => u - v)
      (rest.take dT.length) (dT.map (fun v => c / d0 * v))) ++
        rest.drop dT.length with hrest2
  have hlen2 : rest2.length = rest.length := rest2_length rest dT _ hrle
  have ihr := ih rest2 (by rw [hlen2]; omega)
  have hstep : evalH rest2 z =
      evalH rest z - (c / d0) * evalH dT z * z ^ (rest.length - dT.length) := by
    rw [hrest2, evalH_append, evalH_zip_sub, evalH_map_mul]
    · have hsplit : evalH rest z =
          evalH (rest.take dT.length) z * z ^ (rest.drop dT.length).length +
            evalH (rest.drop dT.length) z := by
        conv_lhs => rw [← List.take_append_drop dT.length rest]
        rw [evalH_append]
      rw [hsplit, List.length_drop]
      ring
    · rw [List.length_take, List.length_map]
      omega
  simp only []
  rw [evalH_cons z (c / d0) ((divModAux d0 dT fuel rest2).1)]
  rw [divModAux_quot_length d0 dT fuel rest2 (by rw [hlen2]; omega), hlen2]
  rw [add_mul, add_assoc, ihr, hstep, evalH_cons z c rest]
  have hd0c : (c / d0) * d0 = c := by field_simp
  have hpow : z ^ (rest.length - dT.length) * z ^ dT.length = z ^ rest.length := by
    rw [← pow_add]
    congr 1
    omega
  calc (c / d0) * z ^ (rest.length - dT.length) * evalH (d0 :: dT) z +
        (evalH rest z - (c / d0) * evalH dT z * z ^ (rest.length - dT.length))
      = (c / d0) * d0 * (z ^ (rest.length - dT.length) * z ^ dT.length) +
          evalH rest z := by
        rw [evalH_cons z d0 dT]
        ring
    _ = c * z ^ rest.length + evalH rest z := by rw [hd0c, hpow]

theorem divModAux_eval (d0 : F) (hd0 : d0 ≠ 0) (dT : List F) (z : F) :
    ∀ (fuel : ℕ) (a : List F), a.length ≤ fuel + dT.length →
      evalH (divModAux d0 dT fuel a).1 z * evalH (d0 :: dT) z +
        evalH (divModAux d0 dT fuel a).2 z = evalH a z := by
  intro fuel
  induction fuel with
  | zero =>
    intro a ha
    simp [divModAux, evalH]
  | succ fuel ih =>
    intro a ha
    by_cases hle : a.length ≤ dT.length
    · have hz : divModAux d0 dT (fuel + 1) a = ([], a) := by
        simp only [divModAux]
        rw [if_pos hle]
      rw [hz]
      simp [evalH]
    · match a with
      | [] => simp at hle
      | c :: rest =>
        simp only [List.length_cons] at hle ha
        exact divModAux_eval_step d0 hd0 dT z fuel ih c rest (by omega) (by omega)

theorem divModH_rem_length (d0 : F) (dT a : List F) :
    (divModH d0 dT a).2.length ≤ dT.length :=
  divModAux_rem_length d0 dT a.length a (by omega)

theorem divModH_quot_length (d0 : F) (dT a : List F) :
    (divModH d0 dT a).1.length = a.length - dT.length :=
  divModAux_quot_length d0 dT a.length a (by omega)

theorem divModH_eval (d0 : F) (hd0 : d0 ≠ 0) (dT a : List F) (z : F) :
    evalH (divModH d0 dT a).1 z * evalH (d0 :: dT) z +
      evalH (divModH d0 dT a).2 z = evalH a z :=
  divModAux_eval d0 hd0 dT z a.length a (by omega)

end DivisionLemmas

section DivisorLemmas

variable {F : Type} [Field F] [DecidableEq F]

theorem set_replicate_zero (m j : ℕ) :
    (List.replicate m (0 : F)).set j 0 = List.replicate m 0 := by
  induction m generalizing j with
  | zero => simp
  | succ m ih =>
    cases j with
    | zero => simp [List.replicate_succ]
    | succ j => simp [List.replicate_succ, ih]

theorem foldl_set_zero (v : F) (m : ℕ) (idxs : List ℕ) (h : ∀ i ∈ idxs, 1 ≤ i) :
    idxs.foldl (fun (l : List F) i => l.set i 0) (v :: List.replicate m 0) =
      v :: List.replicate m 0 := by
  induction idxs with
  | nil => rfl
  | cons hd tl ih =>
    rw [List.foldl_cons]
    have h1 : 1 ≤ hd := h hd (List.mem_cons_self hd tl)
    obtain ⟨j, rfl⟩ : ∃ j, hd = j + 1 := ⟨hd - 1, by omega⟩
    rw [List.set_cons_succ, set_replicate_zero]
    exact ih (fun i hi => h i (List.mem_cons_of_mem _ hi))

theorem replicate_set_last (n : ℕ) (hn : 1 ≤ n) :
    (List.replicate n (0 : F)).set (n - 1) 1 = List.replicate (n - 1) 0 ++ [1] := by
  induction n with
  | zero => omega
  | succ n ih =>
    cases n with
    | zero => simp
    | succ m =>
      rw [List.replicate_succ, show m + 1 + 1 - 1 = (m + 1 - 1) + 1 by omega,
        List.set_cons_succ, ih (by omega)]
      simp [List.replicate_succ]

theorem divisorOf_coeffs (x0 : F) (n : ℕ) (hn : 1 ≤ n) :
    divisorOf x0 n = specDivisor x0 n := by
  rw [divisorOf, specDivisor]
  simp only [fr_pow]
  rw [List.replicate_succ, List.set_cons_zero]
  rw [foldl_set_zero _ _ _ (fun i hi => by
    have := List.mem_range'_1.mp hi
    omega)]
  obtain ⟨m, rfl⟩ : ∃ m, n = m + 1 := ⟨n - 1, by omega⟩
  rw [List.set_cons_succ]
  congr 1
  have hset : (List.replicate (m + 1) (0 : F)).set (m + 1 - 1) 1 =
      List.replicate (m + 1 - 1) 0 ++ [1] := replicate_set_last (m + 1) (by omega)
  simpa using hset

theorem specDivisor_reverse (x0 : F) (n : ℕ) (hn : 1 ≤ n) :
    (specDivisor x0 n).coeffs.reverse =
      1 :: (List.replicate (n - 1) 0 ++ [-(x0 ^ n)]) := by
  rw [specDivisor]
  simp [List.reverse_cons, List.reverse_append, List.reverse_replicate]

theorem specDivisor_eval (x0 z : F) (n : ℕ) (hn : 1 ≤ n) :
    eval_poly (specDivisor x0 n) z = z ^ n - x0 ^ n := by
  rw [eval_poly_eq_evalH, specDivisor_reverse x0 n hn, evalH_cons, evalH_append]
  rw [evalH_replicate_zero]
  simp only [List.length_append, List.length_replicate, List.length_singleton,
    evalH, List.foldl_cons, List.foldl_nil]
  rw [show n - 1 + 1 = n from by omega]
  ring

theorem new_poly_div_spec (p d : poly F) (d0 : F) (dT : List F)
    (hrev : d.coeffs.reverse = d0 :: dT) (hd0 : d0 ≠ 0) :
    new_poly_div p d = .ok (poly_quotient p d) := by
  rw [new_poly_div, poly_quotient, hrev]
  simp [hd0]

theorem poly_quotient_length (p d : poly F) (d0 : F) (dT : List F)
    (hrev : d.coeffs.reverse = d0 :: dT) :
    (poly_quotient p d).length = p.length - dT.length := by
  rw [poly_quotient, hrev]
  simp only [poly.length, List.length_reverse]
  rw [divModH_quot_length]
  simp

theorem poly_remainder_length (p d : poly F) (d0 : F) (dT : List F)
    (hrev : d.coeffs.reverse = d0 :: dT) :
    (poly_remainder p d).length ≤ dT.length := by
  rw [poly_remainder, hrev]
  simp only [poly.length, List.length_reverse]
  exact divModH_rem_length d0 dT p.coeffs.reverse

theorem poly_division_eval (p d : poly F) (d0 : F) (dT : List F)
    (hrev : d.coeffs.reverse = d0 :: dT) (hd0 : d0 ≠ 0) (z : F) :
    eval_poly p z =
      eval_poly (poly_quotient p d) z * eval_poly d z +
        eval_poly (poly_remainder p d) z := by
  rw [eval_poly_eq_evalH p, eval_poly_eq_evalH (poly_quotient p d),
    eval_poly_eq_evalH (poly_remainder p d), eval_poly_eq_evalH d, hrev]
  rw [poly_quotient, poly_remainder, hrev]
  simp only [List.reverse_reverse]
  exact (divModH_eval d0 hd0 dT p.coeffs.reverse z).symm

theorem commit_honest (p : poly F) (ks : KZGSettings F) (s : F)
    (hk : honestKey ks s) (hlen : p.length ≤ ks.length) :
    commit_to_poly p ks = .ok (eval_poly p s) := by
  rw [commit_to_poly, if_pos hlen, g1_linear_combination_eq]
  congr 1
  rw [eval_poly_eq_sum]
  apply Finset.sum_congr rfl
  intro i hi
  rw [Finset.mem_range] at hi
  rw [hk.2.2.1 i (by exact lt_of_lt_of_le hi hlen)]

end DivisorLemmas

section Pipeline

variable {F : Type} [Field F] [DecidableEq F]

theorem pow2_one_le {n : ℕ} (h : is_power_of_two n = true) : 1 ≤ n := by
  rw [is_power_of_two, decide_eq_true_eq] at h
  obtain ⟨k, _, rfl⟩ := h
  exact Nat.one_le_two_pow

theorem is_power_of_two_one : is_power_of_two 1 = true := by decide

theorem except_bind_ok {α β : Type} (a : α) (f : α → Except KzgError β) :
    (Except.ok a : Except KzgError α) >>= f = f a := rfl

theorem eval_poly_const (l : List F) (h : l.length ≤ 1) (z z' : F) :
    eval_poly (⟨l⟩ : poly F) z = eval_poly (⟨l⟩ : poly F) z' := by
  match l with
  | [] => rfl
  | [r] => simp [eval_poly]
  | a :: b :: t => simp at h

theorem specDivisor_tail_length (x0 : F) (n : ℕ) (hn : 1 ≤ n) :
    (List.replicate (n - 1) (0 : F) ++ [-(x0 ^ n)]).length = n := by
  simp
  omega

theorem division_identity (p : poly F) (x0 : F) (n : ℕ) (hn : 1 ≤ n) (z : F) :
    eval_poly p z =
      eval_poly (poly_quotient p (specDivisor x0 n)) z * (z ^ n - x0 ^ n) +
        eval_poly (poly_remainder p (specDivisor x0 n)) z := by
  have h := poly_division_eval p (specDivisor x0 n) 1 _
    (specDivisor_reverse x0 n hn) one_ne_zero z
  rw [specDivisor_eval x0 z n hn] at h
  exact h

theorem remainder_length_le (p : poly F) (x0 : F) (n : ℕ) (hn : 1 ≤ n) :
    (poly_remainder p (specDivisor x0 n)).length ≤ n := by
  have h := poly_remainder_length p (specDivisor x0 n) 1 _
    (specDivisor_reverse x0 n hn)
  rwa [specDivisor_tail_length x0 n hn] at h

theorem quotient_length_eq (p : poly F) (x0 : F) (n : ℕ) (hn : 1 ≤ n) :
    (poly_quotient p (specDivisor x0 n)).length = p.length - n := by
  have h := poly_quotient_length p (specDivisor x0 n) 1 _
    (specDivisor_reverse x0 n hn)
  rwa [specDivisor_tail_length x0 n hn] at h

theorem compute_proof_multi_quotient (p : poly F) (x0 : F) (n : ℕ)
    (ks : KZGSettings F) (hpow : is_power_of_two n = true) :
    compute_proof_multi p x0 n ks =
      commit_to_poly (poly_quotient p (specDivisor x0 n)) ks := by
  have hn := pow2_one_le hpow
  unfold compute_proof_multi
  rw [if_pos hpow, divisorOf_coeffs x0 n hn]
  simp only [new_poly_div_spec p (specDivisor x0 n) 1 _
    (specDivisor_reverse x0 n hn) one_ne_zero, except_bind_ok]

theorem compute_proof_multi_honest (p : poly F) (x0 : F) (n : ℕ)
    (ks : KZGSettings F) (s : F) (hk : honestKey ks s)
    (hlen : p.length ≤ ks.length) (hpow : is_power_of_two n = true) :
    compute_proof_multi p x0 n ks =
      .ok (eval_poly (poly_quotient p (specDivisor x0 n)) s) := by
  rw [compute_proof_multi_quotient p x0 n ks hpow]
  apply commit_honest _ _ _ hk
  rw [quotient_length_eq p x0 n (pow2_one_le hpow)]
  omega

theorem check_proof_single_eq (c pf x y s : F) (ks : KZGSettings F)
    (hk : honestKey ks s) (h1 : 1 < ks.length) :
    check_proof_single c pf x y ks = .ok (decide (c - y = pf * (s - x))) := by
  simp only [check_proof_single, g2_mul, g2_sub, g1_mul, g1_sub, g2_generator,
    g1_generator, pairings_verify, mul_one]
  rw [hk.2.2.2 1 h1, pow_one]

end Pipeline

section CosetLoopLemmas

variable {F : Type} [Field F] [DecidableEq F]

theorem getD_set_ne (l : List F) {i j : ℕ} (v : F) (h : i ≠ j) :
    (l.set i v).getD j 0 = l.getD j 0 := by
  show ((l.set i v).get? j).getD 0 = (l.get? j).getD 0
  rw [List.get?_set_ne v l h]

theorem getD_set_eq (l : List F) {i : ℕ} (v : F) (h : i < l.length) :
    (l.set i v).getD i 0 = v := by
  show ((l.set i v).get? i).getD 0 = v
  rw [List.get?_set_eq_of_lt v h]
  rfl

theorem cosetLoop_length (invx : F) :
    ∀ (steps i : ℕ) (acc : F) (coeffs : List F),
      (cosetLoop invx coeffs acc i steps).1.length = coeffs.length := by
  intro steps
  induction steps with
  | zero => intro i acc coeffs; rfl
  | succ steps ih =>
    intro i acc coeffs
    simp only [cosetLoop]
    rw [ih, List.length_set]

theorem cosetLoop_acc (invx : F) :
    ∀ (steps i : ℕ) (acc : F) (coeffs : List F),
      (cosetLoop invx coeffs acc i steps).2 = acc * invx ^ steps := by
  intro steps
  induction steps with
  | zero => intro i acc coeffs; simp [cosetLoop]
  | succ steps ih =>
    intro i acc coeffs
    simp only [cosetLoop]
    rw [ih, pow_succ]
    ring

theorem cosetLoop_getD (invx : F) :
    ∀ (steps i : ℕ) (acc : F) (coeffs : List F), i + steps ≤ coeffs.length →
      ∀ j, j < coeffs.length →
        (cosetLoop invx coeffs acc i steps).1.getD j 0 =
          if i ≤ j ∧ j < i + steps then
            coeffs.getD j 0 * (acc * invx ^ (j - i))
          else coeffs.getD j 0 := by
  intro steps
  induction steps with
  | zero =>
    intro i acc coeffs hle j hj
    rw [if_neg (by omega)]
    rfl
  | succ steps ih =>
    intro i acc coeffs hle j hj
    simp only [cosetLoop]
    have hset_len : (coeffs.set i (coeffs.getD i 0 * acc)).length = coeffs.length :=
      List.length_set coeffs i _
    rw [ih (i + 1) (acc * invx) (coeffs.set i (coeffs.getD i 0 * acc))
      (by rw [hset_len]; omega) j (by rw [hset_len]; omega)]
    by_cases hj1 : i + 1 ≤ j ∧ j < i + 1 + steps
    · rw [if_pos hj1, if_pos (by omega), getD_set_ne coeffs _ (by omega)]
      have hpow : acc * invx * invx ^ (j - (i + 1)) = acc * invx ^ (j - i) := by
        rw [mul_assoc, ← pow_succ']
        congr 2
        omega
      rw [hpow]
    · rw [if_neg hj1]
      by_cases hji : j = i
      · subst hji
        rw [if_pos (by omega), getD_set_eq coeffs _ (by omega)]
        rw [Nat.sub_self, pow_zero, mul_one]
      · rw [if_neg (by omega), getD_set_ne coeffs _ (by omega)]

theorem fft_fr_inverse_ok (ys : List F) (n : ℕ) (fs : FFTSettings F)
    (h : n ≤ fs.max_width) :
    fft_fr ys true n fs = .ok (inverseDFT (fs.rootForWidth n) n ys) := by
  rw [fft_fr, if_pos h, if_pos rfl]

theorem fft_fr_inverse_err (ys : List F) (n : ℕ) (fs : FFTSettings F)
    (h : ¬n ≤ fs.max_width) :
    fft_fr ys true n fs = .error .BADARGS := by
  rw [fft_fr, if_neg h]

theorem except_bind_err {α β : Type} (e : KzgError) (f : α → Except KzgError β) :
    (Except.error e : Except KzgError α) >>= f = .error e := rfl

theorem commit_congr (l1 l2 : List F) (ks : KZGSettings F)
    (hlen : l1.length = l2.length) (h : ∀ j, j < l1.length → l1.getD j 0 = l2.getD j 0) :
    commit_to_poly (⟨l1⟩ : poly F) ks = commit_to_poly ⟨l2⟩ ks := by
  unfold commit_to_poly
  have hl : (⟨l1⟩ : poly F).length = (⟨l2⟩ : poly F).length := hlen
  rw [hl]
  by_cases hle : (⟨l2⟩ : poly F).length ≤ ks.length
  · rw [if_pos hle, if_pos hle, g1_linear_combination_eq, g1_linear_combination_eq]
    congr 1
    apply Finset.sum_congr rfl
    intro j hj
    rw [Finset.mem_range] at hj
    rw [h j (by rw [hlen]; exact hj)]
  · rw [if_neg hle, if_neg hle]

theorem inverseDFT_length (w : F) (n : ℕ) (vals : List F) :
    (inverseDFT w n vals).length = n := by
  rw [inverseDFT, List.length_map, List.length_range]

/-- The coset-corrected interpolation coefficients produced by the C loop
agree with the direct formula `coeffs[i] * x^(-i)`. -/
theorem cosetLoop_of_interp (x : F) (n : ℕ) (hn : 1 ≤ n) (interp0 : List F)
    (hlen : interp0.length = n) (j : ℕ) (hj : j < n) :
    (cosetLoop x⁻¹ interp0 x⁻¹ 1 (n - 1)).1.getD j 0 =
      interp0.getD j 0 * x⁻¹ ^ j := by
  rw [cosetLoop_getD x⁻¹ (n - 1) 1 x⁻¹ interp0 (by omega) j (by omega)]
  by_cases h1 : 1 ≤ j ∧ j < 1 + (n - 1)
  · rw [if_pos h1, ← pow_succ']
    congr 2
    omega
  · have hj0 : j = 0 := by omega
    rw [if_neg h1, hj0, pow_zero, mul_one]

theorem check_proof_multi_eq_spec (c pf x : F) (ys : List F) (n : ℕ)
    (ks : KZGSettings F) :
    check_proof_multi c pf x ys n ks = verify_multi_spec c pf x ys n ks := by
  by_cases hpow : is_power_of_two n = true
  · rw [check_proof_multi, verify_multi_spec, if_pos hpow, if_pos hpow]
    by_cases hft : n ≤ ks.fs.max_width
    · rw [fft_fr_inverse_ok ys n ks.fs hft]
      simp only [except_bind_ok]
      have hn : 1 ≤ n := pow2_one_le hpow
      set interp0 := inverseDFT (ks.fs.rootForWidth n) n ys with hinterp0
      have hlen0 : interp0.length = n := inverseDFT_length _ _ _
      have hxn : fr_inv (cosetLoop (fr_inv x) interp0 (fr_inv x) 1 (n - 1)).2 =
          x ^ n := by
        rw [fr_inv, fr_inv, cosetLoop_acc, ← pow_succ',
          show n - 1 + 1 = n from by omega, ← inv_pow, inv_inv]
      have hcommit :
          commit_to_poly (⟨(cosetLoop (fr_inv x) interp0 (fr_inv x) 1 (n - 1)).1⟩ :
            poly F) ks =
          commit_to_poly ⟨(List.range n).map (fun i => interp0.getD i 0 * x⁻¹ ^ i)⟩
            ks := by
        apply commit_congr
        · rw [cosetLoop_length, hlen0, List.length_map, List.length_range]
        · intro j hj
          rw [cosetLoop_length, hlen0] at hj
          rw [fr_inv, cosetLoop_of_interp x n hn interp0 hlen0 j hj,
            getD_map_range _ hj]
      rw [hcommit]
      congr 1
      funext is1
      rw [hxn]
    · rw [fft_fr_inverse_err ys n ks.fs hft]
      simp only [except_bind_err]
  · have hfalse : is_power_of_two n = false := by simpa using hpow
    rw [check_proof_multi, verify_multi_spec,
      if_neg (by rw [hfalse]; exact Bool.false_ne_true),
      if_neg (by rw [hfalse]; exact Bool.false_ne_true)]

end CosetLoopLemmas

section InterpolationLemmas

variable {F : Type} [Field F] [DecidableEq F]

theorem geom_sum_eq_zero (t : F) (n : ℕ) (ht : t ^ n = 1) (ht1 : t ≠ 1) :
    ∑ j in Finset.range n, t ^ j = 0 := by
  have h := geom_sum_mul t n
  rw [ht, sub_self] at h
  rcases mul_eq_zero.mp h with h1 | h2
  · exact h1
  · exact absurd (sub_eq_zero.mp h2) ht1

theorem primRoot_ne_zero {w : F} {n : ℕ} (hn : 1 ≤ n) (hw : isPrimRoot w n) :
    w ≠ 0 := by
  intro h0
  have h1 := hw.1
  rw [h0, zero_pow (by omega)] at h1
  exact zero_ne_one h1

theorem primRoot_pow_inj {w : F} {n : ℕ} (hn : 1 ≤ n) (hw : isPrimRoot w n)
    {k i : ℕ} (hk : k < n) (hi : i < n) (h : w ^ k = w ^ i) : k = i := by
  rcases lt_trichotomy k i with h1 | h1 | h1
  · exfalso
    have hsplit : w ^ i = w ^ k * w ^ (i - k) := by
      rw [← pow_add]
      congr 1
      omega
    have hcancel : w ^ k * 1 = w ^ k * w ^ (i - k) := by
      rw [mul_one]
      conv_lhs => rw [h, hsplit]
    have hone := mul_left_cancel₀ (pow_ne_zero k (primRoot_ne_zero hn hw)) hcancel
    exact hw.2 (i - k) (by omega) (by omega) hone.symm
  · exact h1
  · exfalso
    have hsplit : w ^ k = w ^ i * w ^ (k - i) := by
      rw [← pow_add]
      congr 1
      omega
    have hcancel : w ^ i * 1 = w ^ i * w ^ (k - i) := by
      rw [mul_one]
      conv_lhs => rw [← h, hsplit]
    have hone := mul_left_cancel₀ (pow_ne_zero i (primRoot_ne_zero hn hw)) hcancel
    exact hw.2 (k - i) (by omega) (by omega) hone.symm

theorem primRoot_cancel_sum (w : F) (n : ℕ) (hn : 1 ≤ n) (hw : isPrimRoot w n)
    (k i : ℕ) (hk : k < n) (hi : i < n) :
    ∑ j in Finset.range n, (w ^ k * w⁻¹ ^ i) ^ j = if k = i then (n : F) else 0 := by
  by_cases hki : k = i
  · subst hki
    rw [if_pos rfl, inv_pow, mul_inv_cancel₀ (pow_ne_zero _ (primRoot_ne_zero hn hw))]
    simp
  · rw [if_neg hki]
    apply geom_sum_eq_zero
    · have h1 : ((w : F) ^ k) ^ n = 1 := by
        rw [← pow_mul, mul_comm, pow_mul, hw.1, one_pow]
      have h2 : ((w⁻¹ : F) ^ i) ^ n = 1 := by
        rw [← pow_mul, mul_comm, pow_mul, inv_pow, hw.1, inv_one, one_pow]
      rw [mul_pow, h1, h2, one_mul]
    · intro ht1
      have hwi : (w : F) ^ i ≠ 0 := pow_ne_zero _ (primRoot_ne_zero hn hw)
      have heq : w ^ k = w ^ i := by
        have h3 := congrArg (fun t => t * w ^ i) ht1
        simp only [] at h3
        rw [mul_assoc, inv_pow, inv_mul_cancel₀ hwi, mul_one, one_mul] at h3
        exact h3
      exact hki (primRoot_pow_inj hn hw hk hi heq)

/-- The coset-corrected inverse DFT of the values of a polynomial of degree
less than `n` on the coset `{x·w^j}` recovers that polynomial's coefficients:
coefficient `i` of the inverse transform, multiplied by `x^(-i)`, equals
`R.coeff[i]`. -/
theorem interp_coeff (w x : F) (n : ℕ) (hn : 1 ≤ n) (hw : isPrimRoot w n)
    (hnF : (n : F) ≠ 0) (hx : x ≠ 0) (R : List F) (hR : R.length ≤ n)
    (i : ℕ) (hi : i < n) :
    (inverseDFT w n ((List.range n).map
        (fun j => eval_poly (⟨R⟩ : poly F) (x * w ^ j)))).getD i 0 * x⁻¹ ^ i =
      R.getD i 0 := by
  rw [inverseDFT, getD_map_range _ hi, sum_map_range]
  have hterm : ∀ j ∈ Finset.range n,
      ((List.range n).map (fun j => eval_poly (⟨R⟩ : poly F) (x * w ^ j))).getD j 0 *
          w⁻¹ ^ (i * j) =
        ∑ k in Finset.range n, R.getD k 0 * x ^ k * (w ^ k * w⁻¹ ^ i) ^ j := by
    intro j hj
    rw [Finset.mem_range] at hj
    rw [getD_map_range _ hj, eval_poly_eq_sum_pad R _ hR, Finset.sum_mul]
    apply Finset.sum_congr rfl
    intro k hk
    rw [mul_pow x (w ^ j) k]
    have h1 : ((w : F) ^ j) ^ k = (w ^ k) ^ j := by
      rw [← pow_mul, ← pow_mul, Nat.mul_comm]
    have h2 : (w⁻¹ : F) ^ (i * j) = (w⁻¹ ^ i) ^ j := by rw [← pow_mul]
    rw [h1, h2, mul_pow (w ^ k) (w⁻¹ ^ i) j]
    ring
  rw [Finset.sum_congr rfl hterm, Finset.sum_comm]
  have hinner : ∀ k ∈ Finset.range n,
      (∑ j in Finset.range n, R.getD k 0 * x ^ k * (w ^ k * w⁻¹ ^ i) ^ j) =
        R.getD k 0 * x ^ k * (if k = i then (n : F) else 0) := by
    intro k hk
    rw [← Finset.mul_sum,
      primRoot_cancel_sum w n hn hw k i (Finset.mem_range.mp hk) hi]
  rw [Finset.sum_congr rfl hinner]
  simp only [mul_ite, mul_zero]
  rw [Finset.sum_ite_eq' (Finset.range n) i (fun k => R.getD k 0 * x ^ k * (n : F)),
    if_pos (Finset.mem_range.mpr hi), inv_pow]
  field_simp

theorem eval_eq_eval_remainder (p : poly F) (x w : F) (n : ℕ) (hn : 1 ≤ n)
    (hw : isPrimRoot w n) (j : ℕ) :
    eval_poly p (x * w ^ j) =
      eval_poly (poly_remainder p (specDivisor x n)) (x * w ^ j) := by
  have h := division_identity p x n hn (x * w ^ j)
  have hzero : (x * w ^ j) ^ n - x ^ n = 0 := by
    rw [mul_pow, ← pow_mul, mul_comm j n, pow_mul, hw.1, one_pow, mul_one, sub_self]
  rw [h, hzero, mul_zero, zero_add]

end InterpolationLemmas

section ErrorChannel

variable {F : Type} [Field F] [DecidableEq F]

theorem check_ok_of_conditions (c pf x : F) (ys : List F) (n : ℕ)
    (ks : KZGSettings F) (hpow : is_power_of_two n = true)
    (hnw : n ≤ ks.fs.max_width) (hnlen : n ≤ ks.length) :
    ∃ b, check_proof_multi c pf x ys n ks = .ok b := by
  rw [check_proof_multi, if_pos hpow, fft_fr_inverse_ok ys n ks.fs hnw]
  simp only [except_bind_ok]
  have hclen : (⟨(cosetLoop (fr_inv x) (inverseDFT (ks.fs.rootForWidth n) n ys)
      (fr_inv x) 1 (n - 1)).1⟩ : poly F).length ≤ ks.length := by
    show (cosetLoop (fr_inv x) (inverseDFT (ks.fs.rootForWidth n) n ys)
      (fr_inv x) 1 (n - 1)).1.length ≤ ks.length
    rw [cosetLoop_length, inverseDFT_length]
    exact hnlen
  rw [commit_to_poly, if_pos hclen, except_bind_ok]
  exact ⟨_, rfl⟩

theorem check_err_of_conditions (c pf x : F) (ys : List F) (n : ℕ)
    (ks : KZGSettings F)
    (h : ¬(is_power_of_two n = true ∧ n ≤ ks.fs.max_width ∧ n ≤ ks.length)) :
    check_proof_multi c pf x ys n ks = .error .BADARGS := by
  by_cases hpow : is_power_of_two n = true
  · by_cases hnw : n ≤ ks.fs.max_width
    · have hnlen : ¬n ≤ ks.length := by tauto
      rw [check_proof_multi, if_pos hpow, fft_fr_inverse_ok ys n ks.fs hnw]
      simp only [except_bind_ok]
      have hclen : ¬(⟨(cosetLoop (fr_inv x) (inverseDFT (ks.fs.rootForWidth n) n ys)
          (fr_inv x) 1 (n - 1)).1⟩ : poly F).length ≤ ks.length := by
        show ¬(cosetLoop (fr_inv x) (inverseDFT (ks.fs.rootForWidth n) n ys)
          (fr_inv x) 1 (n - 1)).1.length ≤ ks.length
        rw [cosetLoop_length, inverseDFT_length]
        exact hnlen
      rw [commit_to_poly, if_neg hclen, except_bind_err]
    · rw [check_proof_multi, if_pos hpow, fft_fr_inverse_err ys n ks.fs hnw,
        except_bind_err]
  · rw [check_proof_multi,
      if_neg (by simpa using hpow)]

end ErrorChannel

section Claims

variable {F : Type} [Field F] [DecidableEq F]

/-- C4: `commit(poly, key)` fails with BadArguments (and, in the `Except`
model, produces no commitment value) exactly when `poly.length > key.length`;
otherwise it returns Ok with the weighted sum
`Σ_{i < poly.length} poly.coeff[i] * key.secret_g1[i]`, and the zero-length
polynomial commits to the group identity. -/
theorem C4_commit_contract (p : poly F) (ks : KZGSettings F) :
    (commit_to_poly p ks =
      if p.length ≤ ks.length then
        .ok (∑ i in Finset.range p.length, p.coeffs.getD i 0 * ks.secret_g1.getD i 0)
      else .error .BADARGS) ∧
    commit_to_poly (⟨[]⟩ : poly F) ks = .ok g1_identity := by
  constructor
  · by_cases h : p.length ≤ ks.length
    · rw [commit_to_poly, if_pos h, if_pos h, g1_linear_combination_eq]
    · rw [commit_to_poly, if_neg h, if_neg h]
  · rw [commit_to_poly,
      if_pos (show (⟨[]⟩ : poly F).length ≤ ks.length from Nat.zero_le _)]
    rfl

/-- C5: `open_multi(poly, x0, n, key)` fails with BadArguments when `n` is not
a power of two; otherwise it equals the commitment (via `commit`) to the exact
long-division quotient of `poly` by the degree-`n` vanishing polynomial
`D(x) = x^n - x0^n`, whose coefficient 0 is `-(x0^n)`, coefficients `1..n-1`
are zero, and coefficient `n` is one. -/
theorem C5_open_multi_contract (p : poly F) (x0 : F) (n : ℕ) (ks : KZGSettings F) :
    compute_proof_multi p x0 n ks =
      if is_power_of_two n then
        commit_to_poly (poly_quotient p (specDivisor x0 n)) ks
      else .error .BADARGS := by
  by_cases hpow : is_power_of_two n = true
  · rw [if_pos hpow, compute_proof_multi_quotient p x0 n ks hpow]
  · have hfalse : is_power_of_two n = false := by
      simpa using hpow
    rw [compute_proof_multi, if_neg (by rw [hfalse]; exact Bool.false_ne_true),
      if_neg (by rw [hfalse]; exact Bool.false_ne_true)]

/-- C1: for every polynomial `P` with `P.length ≤ key.length` and every point
`x0`, verifying the honestly produced single-point proof succeeds:
`verify_single(commit(P,key), open_single(P,x0,key), x0, P(x0), key)` returns
Ok `true` (for an honestly generated key with secret `s`, whose SRS contains
`s^1`, i.e. `key.length > 1`). -/
theorem C1_verify_single_completeness (p : poly F) (x0 s : F)
    (ks : KZGSettings F) (hk : honestKey ks s) (h1 : 1 < ks.length)
    (hlen : p.length ≤ ks.length) :
    (do
      let c ← commit_to_poly p ks
      let pf ← compute_proof_single p x0 ks
      check_proof_single c pf x0 (eval_poly p x0) ks) = .ok true := by
  rw [commit_honest p ks s hk hlen, except_bind_ok, compute_proof_single,
    compute_proof_multi_honest p x0 1 ks s hk hlen is_power_of_two_one,
    except_bind_ok, check_proof_single_eq _ _ _ _ s ks hk h1]
  congr 1
  rw [decide_eq_true_eq]
  have hs := division_identity p x0 1 (by omega) s
  have hx0 := division_identity p x0 1 (by omega) x0
  have hconst : eval_poly (poly_remainder p (specDivisor x0 1)) s =
      eval_poly (poly_remainder p (specDivisor x0 1)) x0 := by
    have hr := remainder_length_le p x0 1 (by omega)
    exact eval_poly_const _ hr s x0
  simp only [pow_one] at hs hx0
  linear_combination hs - hx0 + hconst

/-- C3: for every polynomial `P` with `P.length ≤ key.length`, point `x0`, and
nonzero field element `d`, replacing the claimed value by `P(x0) + d` after
computing the proof makes verification reject:
`verify_single(commit(P,key), open_single(P,x0,key), x0, P(x0)+d, key)`
returns Ok `false`. -/
theorem C3_verify_single_soundness (p : poly F) (x0 s d : F) (hd : d ≠ 0)
    (ks : KZGSettings F) (hk : honestKey ks s) (h1 : 1 < ks.length)
    (hlen : p.length ≤ ks.length) :
    (do
      let c ← commit_to_poly p ks
      let pf ← compute_proof_single p x0 ks
      check_proof_single c pf x0 (eval_poly p x0 + d) ks) = .ok false := by
  rw [commit_honest p ks s hk hlen, except_bind_ok, compute_proof_single,
    compute_proof_multi_honest p x0 1 ks s hk hlen is_power_of_two_one,
    except_bind_ok, check_proof_single_eq _ _ _ _ s ks hk h1]
  congr 1
  rw [decide_eq_false_iff_not]
  intro heq
  have hs := division_identity p x0 1 (by omega) s
  have hx0 := division_identity p x0 1 (by omega) x0
  have hconst : eval_poly (poly_remainder p (specDivisor x0 1)) s =
      eval_poly (poly_remainder p (specDivisor x0 1)) x0 := by
    have hr := remainder_length_le p x0 1 (by omega)
    exact eval_poly_const _ hr s x0
  simp only [pow_one] at hs hx0
  rw [hs, hx0, hconst] at heq
  exact hd (by linear_combination -heq)

/-- C6: `verify_multi(commitment, proof, x, ys, n, key)`, for power-of-two
`n`, computes its boolean exactly as specified: inverse-FFT the `n` claimed
values over the size-`n` domain, multiply coefficient `i` by `x^(-i)`
(accumulated in the code by repeated multiplication by `x^(-1)`), recover
`x^n` by inverting the accumulated `x^(-n)`, form
`[s^n - x^n]_2 = key.secret_g2[n] - x^n·G2`, commit to the coset-corrected
interpolation polynomial, and return the pairing check — the code equals the
spec-side step list `verify_multi_spec` on all inputs. -/
theorem C6_verify_multi_refinement (c pf x : F) (ys : List F) (n : ℕ)
    (ks : KZGSettings F) :
    check_proof_multi c pf x ys n ks = verify_multi_spec c pf x ys n ks :=
  check_proof_multi_eq_spec c pf x ys n ks

/-- C2: for every polynomial `P` with `P.length ≤ key.length`, nonzero coset
generator `x`, and power-of-two `n ≤ domain.max_width` with `n < key.length`,
over an honestly generated key whose width-`n` domain root is a primitive
`n`-th root of unity (and `n` nonzero in the field), verifying the honestly
produced batch proof succeeds: with `ys[i] = P(x·w^i)`,
`verify_multi(commit(P,key), open_multi(P,x,n,key), x, ys, n, key)` returns
Ok `true`. -/
theorem C2_verify_multi_completeness (p : poly F) (x s : F) (n : ℕ)
    (ks : KZGSettings F) (ys : List F) (hk : honestKey ks s)
    (hpow : is_power_of_two n = true) (hnw : n ≤ ks.fs.max_width)
    (hlen : p.length ≤ ks.length) (hnlen : n < ks.length) (hx : x ≠ 0)
    (hw : isPrimRoot (ks.fs.rootForWidth n) n) (hnF : (n : F) ≠ 0)
    (hys : ys = (List.range n).map
      (fun i => eval_poly p (x * ks.fs.rootForWidth n ^ i))) :
    (do
      let c ← commit_to_poly p ks
      let pf ← compute_proof_multi p x n ks
      check_proof_multi c pf x ys n ks) = .ok true := by
  have hn : 1 ≤ n := pow2_one_le hpow
  rw [commit_honest p ks s hk hlen, except_bind_ok,
    compute_proof_multi_honest p x n ks s hk hlen hpow, except_bind_ok,
    check_proof_multi_eq_spec, verify_multi_spec, if_pos hpow,
    fft_fr_inverse_ok ys n ks.fs hnw]
  simp only [except_bind_ok]
  have hRlen : (poly_remainder p (specDivisor x n)).length ≤ n :=
    remainder_length_le p x n hn
  -- the claimed values are the evaluations of the division remainder
  have hysR : ys = (List.range n).map
      (fun j => eval_poly (⟨(poly_remainder p (specDivisor x n)).coeffs⟩ : poly F)
        (x * ks.fs.rootForWidth n ^ j)) := by
    rw [hys]
    apply List.map_congr_left
    intro j _
    exact eval_eq_eval_remainder p x (ks.fs.rootForWidth n) n hn hw j
  rw [hysR]
  -- committing to the corrected interpolation yields the remainder evaluated
  -- at the secret
  have hcorr : commit_to_poly
      (⟨(List.range n).map (fun i =>
        (inverseDFT (ks.fs.rootForWidth n) n ((List.range n).map
          (fun j => eval_poly
            (⟨(poly_remainder p (specDivisor x n)).coeffs⟩ : poly F)
            (x * ks.fs.rootForWidth n ^ j)))).getD i 0 * x⁻¹ ^ i)⟩ : poly F) ks =
      .ok (eval_poly (poly_remainder p (specDivisor x n)) s) := by
    rw [commit_to_poly, if_pos (by
      show ((List.range n).map _).length ≤ ks.length
      rw [List.length_map, List.length_range]
      omega)]
    congr 1
    have hlenmap : ((List.range n).map (fun i =>
        (inverseDFT (ks.fs.rootForWidth n) n ((List.range n).map
          (fun j => eval_poly
            (⟨(poly_remainder p (specDivisor x n)).coeffs⟩ : poly F)
            (x * ks.fs.rootForWidth n ^ j)))).getD i 0 * x⁻¹ ^ i)).length = n := by
      rw [List.length_map, List.length_range]
    rw [g1_linear_combination_eq]
    have hpad : eval_poly (poly_remainder p (specDivisor x n)) s =
        ∑ i in Finset.range n,
          (poly_remainder p (specDivisor x n)).coeffs.getD i 0 * s ^ i :=
      eval_poly_eq_sum_pad (poly_remainder p (specDivisor x n)).coeffs s hRlen
    rw [hpad, show (⟨(List.range n).map (fun i =>
        (inverseDFT (ks.fs.rootForWidth n) n ((List.range n).map
          (fun j => eval_poly
            (⟨(poly_remainder p (specDivisor x n)).coeffs⟩ : poly F)
            (x * ks.fs.rootForWidth n ^ j)))).getD i 0 * x⁻¹ ^ i)⟩ :
          poly F).length = n from hlenmap]
    apply Finset.sum_congr rfl
    intro i hi
    rw [Finset.mem_range] at hi
    rw [getD_map_range _ hi,
      interp_coeff (ks.fs.rootForWidth n) x n hn hw hnF hx
        (poly_remainder p (specDivisor x n)).coeffs hRlen i hi,
      hk.2.2.1 i (by omega)]
  rw [hcorr, except_bind_ok]
  have hg2 : ks.secret_g2.getD n 0 = s ^ n := hk.2.2.2 n hnlen
  rw [hg2]
  simp only [g1_sub, g2_sub, g2_mul, g2_generator, pairings_verify, mul_one]
  congr 1
  rw [decide_eq_true_eq]
  have hdiv := division_identity p x n hn s
  linear_combination hdiv

/-- Witness for C2: the batch completeness theorem applied to a concrete
polynomial, coset of size 1, generator 3 and honestly generated key over the
field with five elements (secret scalar 2). -/
theorem C2_witness :
    honestKey (⟨[1, 2, 4, 3], [1, 2, 4, 3], 4, ⟨1, 1⟩⟩ : KZGSettings (ZMod 5)) 2 ∧
    is_power_of_two 1 = true ∧
    1 ≤ (⟨[1, 2, 4, 3], [1, 2, 4, 3], 4, ⟨1, 1⟩⟩ :
      KZGSettings (ZMod 5)).fs.max_width ∧
    (⟨[1, 2, 3]⟩ : poly (ZMod 5)).length ≤ 4 ∧ 1 < 4 ∧ (3 : ZMod 5) ≠ 0 ∧
    isPrimRoot ((⟨[1, 2, 4, 3], [1, 2, 4, 3], 4, ⟨1, 1⟩⟩ :
      KZGSettings (ZMod 5)).fs.rootForWidth 1) 1 ∧
    ((1 : ℕ) : ZMod 5) ≠ 0 ∧
    (do
      let c ← commit_to_poly (⟨[1, 2, 3]⟩ : poly (ZMod 5))
        ⟨[1, 2, 4, 3], [1, 2, 4, 3], 4, ⟨1, 1⟩⟩
      let pf ← compute_proof_multi (⟨[1, 2, 3]⟩ : poly (ZMod 5)) 3 1
        ⟨[1, 2, 4, 3], [1, 2, 4, 3], 4, ⟨1, 1⟩⟩
      check_proof_multi c pf 3
        ((List.range 1).map (fun i => eval_poly (⟨[1, 2, 3]⟩ : poly (ZMod 5))
          (3 * (⟨[1, 2, 4, 3], [1, 2, 4, 3], 4, ⟨1, 1⟩⟩ :
            KZGSettings (ZMod 5)).fs.rootForWidth 1 ^ i))) 1
        ⟨[1, 2, 4, 3], [1, 2, 4, 3], 4, ⟨1, 1⟩⟩) = .ok true :=
  ⟨by decide, by decide, by decide, by decide, by decide, by decide, by decide,
    by decide,
    C2_verify_multi_completeness (⟨[1, 2, 3]⟩ : poly (ZMod 5)) 3 2 1
      ⟨[1, 2, 4, 3], [1, 2, 4, 3], 4, ⟨1, 1⟩⟩ _ (by decide) (by decide)
      (by decide) (by decide) (by decide) (by decide) (by decide) (by decide)
      rfl⟩

/-- Witness for C1: the completeness theorem applied to a concrete
polynomial, point and honestly generated key over the field with five
elements (secret scalar 2). -/
theorem C1_witness :
    honestKey (⟨[1, 2, 4, 3], [1, 2, 4, 3], 4, ⟨1, 1⟩⟩ : KZGSettings (ZMod 5)) 2 ∧
    1 < (⟨[1, 2, 4, 3], [1, 2, 4, 3], 4, ⟨1, 1⟩⟩ : KZGSettings (ZMod 5)).length ∧
    (⟨[1, 2, 3]⟩ : poly (ZMod 5)).length ≤
      (⟨[1, 2, 4, 3], [1, 2, 4, 3], 4, ⟨1, 1⟩⟩ : KZGSettings (ZMod 5)).length ∧
    (do
      let c ← commit_to_poly (⟨[1, 2, 3]⟩ : poly (ZMod 5))
        ⟨[1, 2, 4, 3], [1, 2, 4, 3], 4, ⟨1, 1⟩⟩
      let pf ← compute_proof_single (⟨[1, 2, 3]⟩ : poly (ZMod 5)) 3
        ⟨[1, 2, 4, 3], [1, 2, 4, 3], 4, ⟨1, 1⟩⟩
      check_proof_single c pf 3 (eval_poly (⟨[1, 2, 3]⟩ : poly (ZMod 5)) 3)
        ⟨[1, 2, 4, 3], [1, 2, 4, 3], 4, ⟨1, 1⟩⟩) = .ok true :=
  ⟨by decide, by decide, by decide,
    C1_verify_single_completeness (⟨[1, 2, 3]⟩ : poly (ZMod 5)) 3 2
      ⟨[1, 2, 4, 3], [1, 2, 4, 3], 4, ⟨1, 1⟩⟩ (by decide) (by decide) (by decide)⟩

/-- Witness for C3: the rejection theorem applied to a concrete polynomial,
point, perturbation `d = 1` and honestly generated key over the field with
five elements. -/
theorem C3_witness :
    (1 : ZMod 5) ≠ 0 ∧
    (do
      let c ← commit_to_poly (⟨[1, 2, 3]⟩ : poly (ZMod 5))
        ⟨[1, 2, 4, 3], [1, 2, 4, 3], 4, ⟨1, 1⟩⟩
      let pf ← compute_proof_single (⟨[1, 2, 3]⟩ : poly (ZMod 5)) 3
        ⟨[1, 2, 4, 3], [1, 2, 4, 3], 4, ⟨1, 1⟩⟩
      check_proof_single c pf 3 (eval_poly (⟨[1, 2, 3]⟩ : poly (ZMod 5)) 3 + 1)
        ⟨[1, 2, 4, 3], [1, 2, 4, 3], 4, ⟨1, 1⟩⟩) = .ok false :=
  ⟨by decide,
    C3_verify_single_soundness (⟨[1, 2, 3]⟩ : poly (ZMod 5)) 3 2 1 (by decide)
      ⟨[1, 2, 4, 3], [1, 2, 4, 3], 4, ⟨1, 1⟩⟩ (by decide) (by decide) (by decide)⟩

/-- Counterexample to C7: a call with a power-of-two `n` and `ys.length = n`
that nevertheless returns BadArguments — `n = 2` exceeds the bound domain's
`max_width = 1`, so the FFT collaborator fails and the error propagates, even
though the claim says such a call returns Ok. -/
theorem C7_counterexample :
    is_power_of_two 2 = true ∧ ([1, 1] : List (ZMod 5)).length = 2 ∧
    check_proof_multi (0 : ZMod 5) 0 1 [1, 1] 2
      ⟨[1, 2, 4, 3], [1, 2, 4, 3], 4, ⟨1, 1⟩⟩ = .error .BADARGS :=
  ⟨by decide, by decide, rfl⟩

/-- C7 (amended): `verify_multi` returns Ok — reporting proof validity
exclusively through the output boolean — exactly when `n` is a power of two,
`n ≤ domain.max_width` (the FFT contract), and `n ≤ key.length` (the commit
precondition for the interpolation polynomial); in every other case it
returns BadArguments.  The length of `ys` is never checked: the C signature
takes a bare pointer, and no `ys.length ≠ n` error exists. -/
theorem C7_amended_error_contract (c pf x : F) (ys : List F) (n : ℕ)
    (ks : KZGSettings F) :
    ((∃ b, check_proof_multi c pf x ys n ks = .ok b) ↔
      (is_power_of_two n = true ∧ n ≤ ks.fs.max_width ∧ n ≤ ks.length)) ∧
    (¬(is_power_of_two n = true ∧ n ≤ ks.fs.max_width ∧ n ≤ ks.length) →
      check_proof_multi c pf x ys n ks = .error .BADARGS) := by
  constructor
  · constructor
    · intro hb
      by_contra hcond
      obtain ⟨b, hb⟩ := hb
      rw [check_err_of_conditions c pf x ys n ks hcond] at hb
      exact Except.noConfusion hb
    · intro hcond
      exact check_ok_of_conditions c pf x ys n ks hcond.1 hcond.2.1 hcond.2.2
  · intro hcond
    exact check_err_of_conditions c pf x ys n ks hcond

/-- Witness for the amended C7: a concrete call meeting all three conditions
returns Ok, and a concrete call with power-of-two `n = 4` exceeding the
domain width returns BadArguments. -/
theorem C7_amended_witness :
    (∃ b, check_proof_multi (2 : ZMod 5) 0 3 [1] 1
      ⟨[1, 2, 4, 3], [1, 2, 4, 3], 4, ⟨1, 1⟩⟩ = .ok b) ∧
    check_proof_multi (0 : ZMod 5) 0 1 [1, 1, 1, 1] 4
      ⟨[1, 2, 4, 3], [1, 2, 4, 3], 4, ⟨1, 1⟩⟩ = .error .BADARGS :=
  ⟨(C7_amended_error_contract (2 : ZMod 5) 0 3 [1] 1
      ⟨[1, 2, 4, 3], [1, 2, 4, 3], 4, ⟨1, 1⟩⟩).1.mpr
    ⟨by decide, by decide, by decide⟩,
   (C7_amended_error_contract (0 : ZMod 5) 0 1 [1, 1, 1, 1] 4
      ⟨[1, 2, 4, 3], [1, 2, 4, 3], 4, ⟨1, 1⟩⟩).2 (by decide)⟩

/-- Counterexample to C8: a key satisfying all the spec's stated
preconditions — `n` a power of two, `n ≤ max_width`, `key.length ≥ max_width`,
well-formed SRS arrays of `key.length` entries — in which the index `n` read
by `verify_multi` is nevertheless out of bounds: `n = max_width = key.length
= 1`, and the SRS arrays have exactly one entry, indexed only by 0. -/
theorem C8_counterexample :
    is_power_of_two 1 = true ∧
    1 ≤ (⟨[0], [0], 1, ⟨1, 1⟩⟩ : KZGSettings (ZMod 5)).fs.max_width ∧
    (⟨[0], [0], 1, ⟨1, 1⟩⟩ : KZGSettings (ZMod 5)).fs.max_width ≤
      (⟨[0], [0], 1, ⟨1, 1⟩⟩ : KZGSettings (ZMod 5)).length ∧
    (⟨[0], [0], 1, ⟨1, 1⟩⟩ : KZGSettings (ZMod 5)).secret_g2.length =
      (⟨[0], [0], 1, ⟨1, 1⟩⟩ : KZGSettings (ZMod 5)).length ∧
    ¬(1 < (⟨[0], [0], 1, ⟨1, 1⟩⟩ : KZGSettings (ZMod 5)).secret_g2.length) := by
  decide

/-- C8 (amended): the read of `key.secret_g2[n]` in `verify_multi` is within
the bounds of the SRS arrays provided `key.length > n`; this follows from the
spec's stated preconditions only when they hold strictly somewhere —
`n < max_width` or `key.length > max_width` — and fails in the boundary case
`n = max_width = key.length`. -/
theorem C8_amended_srs_index_bound (n : ℕ) (ks : KZGSettings F)
    (hpow : is_power_of_two n = true) (hnw : n ≤ ks.fs.max_width)
    (hinv : ks.fs.max_width ≤ ks.length)
    (hwf : ks.secret_g2.length = ks.length)
    (hstrict : n < ks.fs.max_width ∨ ks.fs.max_width < ks.length) :
    n < ks.secret_g2.length := by
  omega

/-- Witness for the amended C8 at a concrete key of length 2 over a domain of
width 1. -/
theorem C8_amended_witness :
    1 < (⟨[0, 0], [0, 0], 2, ⟨1, 1⟩⟩ : KZGSettings (ZMod 5)).secret_g2.length :=
  C8_amended_srs_index_bound 1 (⟨[0, 0], [0, 0], 2, ⟨1, 1⟩⟩ : KZGSettings (ZMod 5))
    (by decide) (by decide) (by decide) (by decide) (by decide)

/-- Evaluation of the leak behaviour for C9: on failing inner steps the
transient polynomials are NOT freed.  `check_proof_multi` with `n = 2` over a
width-1 domain fails in `fft_fr` and returns with the interpolation polynomial
still allocated (1 leaked); `compute_proof_multi` with a 6-coefficient
polynomial against a length-1 key fails in `commit_to_poly` and returns with
the divisor and quotient polynomials still allocated (2 leaked). -/
theorem C9_leak_evaluation :
    (check_proof_multi_alloc (0 : ZMod 5) 0 1 [1, 1] 2
      ⟨[1, 2, 4, 3], [1, 2, 4, 3], 4, ⟨1, 1⟩⟩).2 = 1 ∧
    (check_proof_multi_alloc (0 : ZMod 5) 0 1 [1, 1] 2
      ⟨[1, 2, 4, 3], [1, 2, 4, 3], 4, ⟨1, 1⟩⟩).1 = .error .BADARGS ∧
    (compute_proof_multi_alloc (⟨[1, 1, 1, 1, 1, 1]⟩ : poly (ZMod 5)) 1 1
      ⟨[1], [1], 1, ⟨1, 1⟩⟩).2 = 2 ∧
    (compute_proof_multi_alloc (⟨[1, 1, 1, 1, 1, 1]⟩ : poly (ZMod 5)) 1 1
      ⟨[1], [1], 1, ⟨1, 1⟩⟩).1 = .error .BADARGS :=
  ⟨rfl, rfl, rfl, rfl⟩

/-- C10: `verify_multi` implicitly requires the coset generator `x` to be
nonzero: the field model of the inversion primitive maps zero to zero
(`fr_inv 0 = 0`, the primitive's contract reserving failure exactly for
zero), the code inverts `x` without any guard, and for `x = 0` no
BadArguments or other error is reported — whenever the structural
preconditions hold the call still returns Ok with a boolean computed from the
unchecked inversion of zero. -/
theorem C10_zero_generator_unchecked (c pf : F) (ys : List F) (n : ℕ)
    (ks : KZGSettings F) (hpow : is_power_of_two n = true)
    (hnw : n ≤ ks.fs.max_width) (hnlen : n ≤ ks.length) :
    fr_inv (0 : F) = 0 ∧ ∃ b, check_proof_multi c pf (0 : F) ys n ks = .ok b :=
  ⟨inv_zero, check_ok_of_conditions c pf 0 ys n ks hpow hnw hnlen⟩

/-- Witness for C10 at a concrete call with `x = 0` over the field with five
elements. -/
theorem C10_witness :
    is_power_of_two 1 = true ∧
    1 ≤ (⟨[1, 2, 4, 3], [1, 2, 4, 3], 4, ⟨1, 1⟩⟩ :
      KZGSettings (ZMod 5)).fs.max_width ∧
    1 ≤ (⟨[1, 2, 4, 3], [1, 2, 4, 3], 4, ⟨1, 1⟩⟩ :
      KZGSettings (ZMod 5)).length ∧
    (fr_inv (0 : ZMod 5) = 0 ∧ ∃ b, check_proof_multi (2 : ZMod 5) 0 0 [1] 1
      ⟨[1, 2, 4, 3], [1, 2, 4, 3], 4, ⟨1, 1⟩⟩ = .ok b) :=
  ⟨by decide, by decide, by decide,
    C10_zero_generator_unchecked 2 0 [1] 1
      ⟨[1, 2, 4, 3], [1, 2, 4, 3], 4, ⟨1, 1⟩⟩ (by decide) (by decide) (by decide)⟩

end Claims

end CKzg
